import Mathlib

set_option maxRecDepth 100000

/-!
Verification of the text-extraction core of `app.py` (Curva ABC product
extractor).  The three core functions `br_to_float`, `guess_setor` and
`parse_lince_lines` are embedded shallowly over `List Char` / `String`.
Python floats are modelled as exact rationals; `pyFloat` models Python's
`float()` on the sign/digit/dot decimal literals that are the only forms
producible from this program's numeric tokens (`[0-9.,]+` after the
dot/comma rewrites).  The pandas `groupby`/`sort_values` block is modelled
by name-grouping over alphabetically sorted keys followed by a descending
sort on `valor`; pandas' default quicksort specifies only the
value-descending arrangement, not the order of equal-value rows, so the
executable sort here fixes one admissible arrangement and only properties
that hold of every admissible arrangement (sortedness, permutation facts)
are claimed of the program.
-/

/-- Python `\s` on the inputs at hand: the six ASCII whitespace characters. -/
def isWS (c : Char) : Bool :=
  c = ' ' || c = '\t' || c = '\n' || c = '\r' || c = '\x0b' || c = '\x0c'

/-- Character class of the `NUM_TOKEN` regex `[0-9\.\,]+`. -/
def isNum (c : Char) : Bool :=
  c.isDigit || c = '.' || c = ','

/-- Python `\w` (word character) restricted to ASCII plus the Latin-1 letters
that occur in this program's data. -/
def isWordChar (c : Char) : Bool :=
  c.isDigit || ('A' ≤ c && c ≤ 'Z') || ('a' ≤ c && c ≤ 'z') || c = '_' ||
    (0xC0 ≤ c.toNat && c.toNat ≤ 0xFF && c.toNat ≠ 0xD7 && c.toNat ≠ 0xF7)

/-- Value of a digit string, most significant first. -/
def natOfDigits (l : List Char) : Nat :=
  l.foldl (fun a c => 10 * a + (c.toNat - 48)) 0

/-- Python `str.strip()`: remove leading and trailing whitespace. -/
def stripWS (l : List Char) : List Char :=
  ((l.dropWhile isWS).reverse.dropWhile isWS).reverse

/-- `re.sub(r"\s{2,}", " ", ·)`: every maximal run of two or more whitespace
characters becomes a single space; an isolated whitespace character is kept
as it is. -/
def collapseWS : List Char → List Char
  | [] => []
  | a :: rest =>
    if isWS a then
      match rest with
      | [] => [a]
      | b :: _ =>
        if isWS b then ' ' :: (collapseWS rest).tail
        else a :: collapseWS rest
    else a :: collapseWS rest

/-- Negation on ℚ in normalized-constructor form (`ratNeg_eq` below shows it
is ordinary negation; this form lets the kernel compute with it). -/
def ratNeg (q : ℚ) : ℚ := mkRat (-q.num) q.den

/-- Magnitude part of a Python float literal: `digits`, `digits.digits`,
`digits.` or `.digits` (at least one digit in total).  The value of
`ip.fp` is the exact rational `ip + fp / 10 ^ |fp|`, built here as the
single fraction `(ip * 10 ^ |fp| + fp) / 10 ^ |fp|` (see `mkRat_decimal`). -/
def pyFloatMag (cs : List Char) : Option ℚ :=
  let ip := cs.takeWhile Char.isDigit
  let r1 := cs.dropWhile Char.isDigit
  match r1 with
  | [] => if ip = [] then none else some (mkRat (natOfDigits ip) 1)
  | c :: r2 =>
    if c = '.' then
      let fp := r2.takeWhile Char.isDigit
      let r3 := r2.dropWhile Char.isDigit
      if r3 = [] then
        if ip = [] ∧ fp = [] then none
        else some (mkRat (natOfDigits ip * 10 ^ fp.length + natOfDigits fp) (10 ^ fp.length))
      else none
    else none

/-- Python `float()` on an optionally signed decimal literal; `none` models
a raised-and-caught `ValueError`. -/
def pyFloat (cs : List Char) : Option ℚ :=
  match cs with
  | [] => none
  | c :: rest =>
    if c = '-' then (pyFloatMag rest).map ratNeg
    else if c = '+' then pyFloatMag rest
    else pyFloatMag cs

/-- The Brazilian-format rewrite of `br_to_float`:
`t.replace(".", "").replace(",", ".")`. -/
def brTransform (l : List Char) : List Char :=
  (l.filter (fun c => c != '.')).map (fun c => if c = ',' then '.' else c)

/-- Core of `br_to_float` on the character list of a string.  Mirrors the
source exactly: after a failed Brazilian parse the mutated `t` (dots
stripped, commas already turned into dots) is what the fallback
`t.replace(",", "")` re-parses. -/
def brToFloatCore (cs : List Char) : Option ℚ :=
  let t := stripWS cs
  if ',' ∈ t then
    let t1 := brTransform t
    match pyFloat t1 with
    | some q => some q
    | none => pyFloat (t1.filter (fun c => c != ','))
  else
    pyFloat (t.filter (fun c => c != ','))

/-- `br_to_float(txt)`: `None` input propagates to `None`, otherwise the
string is stripped and parsed BR-first with the EN fallback. -/
def br_to_float : Option String → Option ℚ
  | none => none
  | some s => brToFloatCore s.data

/-- Python `str.lower()` character-wise, for ASCII plus Latin-1 letters. -/
def toLowerC (c : Char) : Char :=
  if 'A' ≤ c ∧ c ≤ 'Z' then Char.ofNat (c.toNat + 32)
  else if 0xC0 ≤ c.toNat ∧ c.toNat ≤ 0xDE ∧ c.toNat ≠ 0xD7 then Char.ofNat (c.toNat + 32)
  else if c.toNat = 0x178 then Char.ofNat 0xFF
  else c

/-- Python `str.upper()` character-wise, for ASCII plus Latin-1 letters. -/
def toUpperC (c : Char) : Char :=
  if 'a' ≤ c ∧ c ≤ 'z' then Char.ofNat (c.toNat - 32)
  else if 0xE0 ≤ c.toNat ∧ c.toNat ≤ 0xFE ∧ c.toNat ≠ 0xF7 then Char.ofNat (c.toNat - 32)
  else if c.toNat = 0xFF then Char.ofNat 0x178
  else c

/-- Upper-case letters (ASCII plus Latin-1). -/
def isUpperC (c : Char) : Bool :=
  ('A' ≤ c && c ≤ 'Z') || (0xC0 ≤ c.toNat && c.toNat ≤ 0xDE && c.toNat ≠ 0xD7) ||
    c.toNat = 0x178

/-- Lower-case letters (ASCII plus Latin-1). -/
def isLowerC (c : Char) : Bool :=
  ('a' ≤ c && c ≤ 'z') || (0xDF ≤ c.toNat && c.toNat ≤ 0xFF && c.toNat ≠ 0xF7)

/-- Python `str.isupper()`: at least one cased character and no lower-case
character (cased characters here are the upper/lower letters above). -/
def isUpperStr (l : List Char) : Bool :=
  l.any isUpperC && !(l.any isLowerC)

/-- Split on `'\n'`, modelling `str.splitlines()` for the newline-delimited
inputs of this program (a stray `'\r'` is whitespace and is consumed by the
subsequent `strip()` calls exactly as CPython's splitting would drop it). -/
def splitNl : List Char → List (List Char)
  | [] => [[]]
  | c :: rest =>
    if c = '\n' then [] :: splitNl rest
    else
      match splitNl rest with
      | [] => [[c]]
      | l :: ls => (c :: l) :: ls

/-- Index of the first (leftmost) occurrence of `pat` in `l`, if any. -/
def subIdx (pat : List Char) : List Char → Option Nat
  | [] => if pat.isEmpty then some 0 else none
  | c :: rest =>
    if pat.isPrefixOf (c :: rest) then some 0
    else (subIdx pat rest).map (fun i => i + 1)

/-- Substring containment, `pat in l` in Python. -/
def containsSub (pat l : List Char) : Bool :=
  (subIdx pat l).isSome

/-- The suffix of the text right after the first case-insensitive occurrence
of the literal `"Departamento:"`, if that marker occurs. -/
def afterMarker : List Char → Option (List Char)
  | [] => none
  | c :: rest =>
    if ("departamento:".data).isPrefixOf ((c :: rest).map toLowerC) then
      some ((c :: rest).drop ("departamento:".data).length)
    else afterMarker rest

/-- `os.path.basename` on POSIX: the part after the last `'/'`. -/
def basenameL (l : List Char) : List Char :=
  (l.reverse.takeWhile (fun c => c != '/')).reverse

/-- The fixed department keyword vocabulary, in test order. -/
def chaves : List String :=
  ["FRIOS", "AÇOUGUE", "PADARIA", "HORTIFRUTI", "BEBIDAS", "MERCEARIA"]

/-- First keyword of `ks` occurring in `l`, with its position and length. -/
def firstChave : List String → List Char → Option (Nat × Nat)
  | [], _ => none
  | k :: ks, l =>
    match subIdx k.data l with
    | some i => some (i, k.data.length)
    | none => firstChave ks l

/-- Characters kept by `re.sub(r"[^A-Z0-9]", "", ·)`. -/
def isAZ09 (c : Char) : Bool :=
  ('A' ≤ c && c ≤ 'Z') || c.isDigit

/-- The filename fallback of `guess_setor`: upper-case the basename, take the
first department keyword found, keep a window of keyword length plus two and
drop everything outside `[A-Z0-9]`. -/
def setorFromFilename (filename : String) : String :=
  let baseUp := (basenameL filename.data).map toUpperC
  match firstChave chaves baseUp with
  | some (start, klen) =>
    String.mk (((baseUp.drop start).take (klen + 2)).filter isAZ09)
  | none => "N/D"

/-- `guess_setor(text, filename)`.  The regex
`Departamento:\s*([\s\S]{0,40})` consumes the marker, then greedily the
whitespace run, then greedily up to 40 further characters; `m.end()` — where
the line scan starts — lies after that window. -/
def guess_setor (text filename : String) : String :=
  match afterMarker text.data with
  | some afterM =>
    let tail := (afterM.dropWhile isWS).drop 40
    match ((splitNl tail).take 5).find?
        (fun l =>
          let t := stripWS l
          decide (2 ≤ t.length) && decide (t.length ≤ 20) && isUpperStr t) with
    | some l => String.mk (stripWS l)
    | none => setorFromFilename filename
  | none => setorFromFilename filename

/-- Letters of the validator's name class `[A-Za-zÀ-ÖØ-öø-ÿ]`. -/
def isLetterBR (c : Char) : Bool :=
  ('A' ≤ c && c ≤ 'Z') || ('a' ≤ c && c ≤ 'z') ||
    (0xC0 ≤ c.toNat && c.toNat ≤ 0xD6) || (0xD8 ≤ c.toNat && c.toNat ≤ 0xF6) ||
    (0xF8 ≤ c.toNat && c.toNat ≤ 0xFF)

/-- `re.search(r"[A-Za-zÀ-ÖØ-öø-ÿ]{3,}", ·)`: three consecutive letters. -/
def hasLetterRun3 : List Char → Bool
  | a :: b :: c :: rest =>
    (isLetterBR a && isLetterBR b && isLetterBR c) || hasLetterRun3 (b :: c :: rest)
  | _ => false

/-- The boilerplate denylist `lixo` of `parse_lince_lines`. -/
def lixo : List String :=
  ["Curva ABC", "Período", "CST", "ECF", "Situação Tributária",
   "Classif.", "Codigo", "Barras", "Total do Departamento",
   "Total Geral", "www.grupotecnoweb.com.br"]

/-- `any(k in ln for k in lixo)`. -/
def containsAnyLixo (l : List Char) : Bool :=
  lixo.any (fun k => containsSub k.data l)

/-- `re.sub(r"\b\d{lo,hi}\b$", "", ·)` on a line with no trailing
whitespace: the maximal trailing digit run is removed when its length lies
in `[lo, hi]` and the character before it (if any) is not a word character
(so the run is standalone); a longer or attached run never matches because
`\b` fails inside a digit run. -/
def stripTrailing (lo hi : Nat) (cs : List Char) : List Char :=
  let rrev := cs.reverse
  let run := rrev.takeWhile Char.isDigit
  let rest := rrev.dropWhile Char.isDigit
  let boundary : Bool :=
    match rest with
    | [] => true
    | c :: _ => !(isWordChar c)
  if lo ≤ run.length ∧ run.length ≤ hi ∧ boundary = true then rest.reverse
  else cs

/-- Per-line normalization `re.sub(r"\s{2,}", " ", ln).strip()`. -/
def cleanLine (raw : List Char) : List Char :=
  stripWS (collapseWS raw)

/-- Barcode stripping then internal-code stripping, each followed by
`.strip()`, as in lines 80–82 of the source. -/
def stripCodes (ln : List Char) : List Char :=
  stripWS (stripTrailing 4 8 (stripWS (stripTrailing 8 13 ln)))

/-- One `\s+([0-9\.\,]+)` step of the product pattern: the greedy
whitespace run, then the greedy numeric token, both of which are maximal
runs because the two character classes are disjoint. -/
def wsNumStep (cs : List Char) : Option (List Char × List Char) :=
  let w := cs.takeWhile isWS
  let r := cs.dropWhile isWS
  if w.isEmpty then none else
  let n := r.takeWhile isNum
  let r2 := r.dropWhile isNum
  if n.isEmpty then none else some (n, r2)

/-- The tail of the product pattern after the non-greedy name:
`\s+(NUM)\s+(NUM)\s+(NUM)(\s+.+)?$` where `NUM = [0-9\.\,]+`.  Because the
whitespace class and the numeric-token class are disjoint, each greedy
quantifier can only match its maximal run, so the regex engine's search
collapses to this deterministic three-step scan; the optional trailing
group matches exactly when the remainder is empty or starts with a
whitespace character followed by at least one more character. -/
def restMatch (cs : List Char) : Option (List Char × List Char × List Char) :=
  match wsNumStep cs with
  | none => none
  | some (n1, r1) =>
    match wsNumStep r1 with
    | none => none
    | some (n2, r2) =>
      match wsNumStep r2 with
      | none => none
      | some (n3, r3) =>
        match r3 with
        | [] => some (n1, n2, n3)
        | c :: rest => if isWS c ∧ rest ≠ [] then some (n1, n2, n3) else none

/-- The lazy `(?P<nome>.+?)` search: try the shortest non-empty name first,
extending one character at a time. -/
def matchGo (acc : List Char) :
    (rest : List Char) → Option (List Char × List Char × List Char × List Char)
  | [] =>
    match restMatch [] with
    | some (n1, n2, n3) => some (acc.reverse, n1, n2, n3)
    | none => none
  | c :: rest2 =>
    match restMatch (c :: rest2) with
    | some (n1, n2, n3) => some (acc.reverse, n1, n2, n3)
    | none => matchGo (c :: acc) rest2

/-- `patt.match(ln_clean)` for the product-line pattern
`^(?P<nome>.+?)\s+(NUM)\s+(NUM)\s+(NUM)(\s+.+)?$`: the four captured raw
groups, name first. -/
def matchPatt : List Char → Option (List Char × List Char × List Char × List Char)
  | [] => none
  | c :: rest => matchGo [c] rest

/-- One row of the extraction result (line 113–118 of the source). -/
structure Produto where
  nome : String
  preco_unit : ℚ
  quantidade : ℚ
  valor : ℚ
deriving DecidableEq

/-- Per-line classification/extraction: normalization, denylist skip,
barcode/code stripping and the pattern match, yielding the raw captured
groups. -/
def lineCandidate (raw : List Char) :
    Option (List Char × List Char × List Char × List Char) :=
  let ln := cleanLine raw
  if ln.isEmpty then none
  else if containsAnyLixo ln then none
  else matchPatt (stripCodes ln)

/-- Per-line record production: extraction followed by the sanity filters of
the Record Validator (price parses and is positive, value and quantity parse
and are nonnegative, at least three consecutive letters in the name). -/
def lineRecord (raw : List Char) : Option Produto :=
  match lineCandidate raw with
  | none => none
  | some (nome, preco, qtd, valor) =>
    match brToFloatCore preco with
    | none => none
    | some p =>
      if p ≤ 0 then none
      else
        match brToFloatCore valor with
        | none => none
        | some v =>
          if v < 0 then none
          else
            match brToFloatCore qtd with
            | none => none
            | some q =>
              if q < 0 then none
              else
                if hasLetterRun3 (stripWS nome) then
                  some ⟨String.mk (stripWS nome), p, q, v⟩
                else none

/-- The record stream of a list of raw lines (the `for ln in lines` loop). -/
def produtosLines (ls : List (List Char)) : List Produto :=
  ls.filterMap lineRecord

/-- ℚ addition in normalized-constructor form (`ratAdd_eq` below shows it is
ordinary addition; this form lets the kernel compute with it). -/
def ratAdd (a b : ℚ) : ℚ :=
  mkRat (a.num * b.den + b.num * a.den) (a.den * b.den)

/-- Sum of a list of rationals (pandas `"sum"`), via `ratAdd`. -/
def ratSum (l : List ℚ) : ℚ :=
  l.foldr ratAdd 0

/-- Division of a rational by a natural number (the group size), in
normalized-constructor form (`ratDivNat_eq` below). -/
def ratDivNat (a : ℚ) (n : Nat) : ℚ :=
  mkRat a.num (a.den * n)

/-- Python string comparison `<`: lexicographic on code points. -/
def strLtL : List Char → List Char → Bool
  | [], [] => false
  | [], _ :: _ => true
  | _ :: _, [] => false
  | a :: xs, b :: ys =>
    if a.toNat < b.toNat then true
    else if b.toNat < a.toNat then false
    else strLtL xs ys

/-- Python `<` on strings. -/
def strLt (a b : String) : Bool :=
  strLtL a.data b.data

/-- Insertion step of the ascending sort of group keys (pandas `groupby`
sorts its keys). -/
def insertAsc (x : String) : List String → List String
  | [] => [x]
  | y :: ys => if strLt x y then x :: y :: ys else y :: insertAsc x ys

/-- Ascending sort of the distinct names, as `groupby(..., sort=True)`
orders the groups. -/
def sortStrAsc (l : List String) : List String :=
  l.foldr insertAsc []

/-- One aggregated row: mean unit price, summed quantity and value over the
group of records with exactly this name. -/
def combine (rs : List Produto) (n : String) : Produto :=
  let g := rs.filter (fun r => r.nome == n)
  ⟨n, ratDivNat (ratSum (g.map Produto.preco_unit)) g.length,
    ratSum (g.map Produto.quantidade), ratSum (g.map Produto.valor)⟩

/-- `df.groupby("nome", as_index=False).agg({"preco_unit": "mean",
"quantidade": "sum", "valor": "sum"})`: one row per distinct name, rows in
ascending name order. -/
def aggregate (rs : List Produto) : List Produto :=
  (sortStrAsc ((rs.map Produto.nome).dedup)).map (combine rs)

/-- Insertion step of the descending sort on `valor`. -/
def insDesc (x : Produto) : List Produto → List Produto
  | [] => [x]
  | y :: ys => if y.valor ≤ x.valor then x :: y :: ys else y :: insDesc x ys

/-- `sort_values("valor", ascending=False)`.  pandas' default quicksort
guarantees only that the result is ordered by `valor` descending; the
relative order of equal-value rows is unspecified (numpy's introsort is
stable only below its insertion-sort threshold).  This executable model
fixes one admissible arrangement; theorems rely only on the sortedness and
permutation properties shared by every admissible arrangement. -/
def sortValDesc (l : List Produto) : List Produto :=
  l.foldr insDesc []

/-- `parse_lince_lines(text)`: split into lines, normalize, classify,
validate, aggregate by name and sort by value descending.  An empty record
stream yields the empty output (the `df.empty` early return). -/
def parse_lince_lines (text : String) : List Produto :=
  sortValDesc (aggregate (produtosLines (splitNl text.data)))

/-- Space-joined token lists, the shape of a whitespace-collapsed line. -/
def intercalateSp : List (List Char) → List Char
  | [] => []
  | [t] => t
  | t :: ts => t ++ ' ' :: intercalateSp ts

/-- The space-free tail of a line after its first token. -/
def tailToks : List (List Char) → List Char
  | [] => []
  | t :: ts => ' ' :: intercalateSp (t :: ts)

/-- No two adjacent whitespace characters. -/
def noDbl : List Char → Prop
  | [] => True
  | [_] => True
  | a :: b :: rest => ¬(isWS a = true ∧ isWS b = true) ∧ noDbl (b :: rest)

/-- A nonempty all-numeric token. -/
def allNumP (t : List Char) : Prop :=
  t ≠ [] ∧ ∀ c ∈ t, isNum c = true

/-- No three consecutive all-numeric tokens. -/
def noTriple : List (List Char) → Prop
  | a :: b :: c :: rest =>
    ¬(allNumP a ∧ allNumP b ∧ allNumP c) ∧ noTriple (b :: c :: rest)
  | _ => True

/-- `mkRat n d` is just `n / d` in ℚ; used to restate computed values as
ordinary fractions. -/
theorem q_div_mkRat (n d : ℕ) : (n / d : ℚ) = mkRat n d := by
  rw [Rat.mkRat_eq_div]
  norm_num

/-- The decimal `ip.fp` as one fraction equals `ip + fp / 10 ^ k`. -/
theorem mkRat_decimal (i f k : ℕ) :
    mkRat (i * 10 ^ k + f) (10 ^ k) = (i : ℚ) + (f : ℚ) / 10 ^ k := by
  rw [Rat.mkRat_eq_div]
  push_cast
  have h : ((10 : ℚ) ^ k) ≠ 0 := by positivity
  field_simp

/-- `ratNeg` is ordinary negation on ℚ. -/
theorem ratNeg_eq (q : ℚ) : ratNeg q = -q := by
  rw [ratNeg, Rat.mkRat_eq_div]
  push_cast
  rw [neg_div, Rat.num_div_den]

/-- `ratAdd` is ordinary addition on ℚ. -/
theorem ratAdd_eq (a b : ℚ) : ratAdd a b = a + b := by
  have ha : ((a.den : ℚ)) ≠ 0 := by
    exact_mod_cast a.den_nz
  have hb : ((b.den : ℚ)) ≠ 0 := by
    exact_mod_cast b.den_nz
  rw [ratAdd, Rat.mkRat_eq_div]
  push_cast
  conv_rhs => rw [← Rat.num_div_den a, ← Rat.num_div_den b]
  rw [div_add_div _ _ ha hb]
  ring_nf

/-- `ratSum` is the ordinary sum of a list of rationals. -/
theorem ratSum_eq (l : List ℚ) : ratSum l = l.sum := by
  induction l with
  | nil => rfl
  | cons a t ih => simp [ratSum, List.foldr, ratAdd_eq] at ih ⊢; rw [ih]

/-- `ratDivNat` is ordinary division by the natural number. -/
theorem ratDivNat_eq (a : ℚ) (n : ℕ) : ratDivNat a n = a / (n : ℚ) := by
  rw [ratDivNat, Rat.mkRat_eq_div]
  push_cast
  conv_rhs => rw [← Rat.num_div_den a]
  rw [div_div]

/-- A record stream is unchanged when a line producing no record is removed:
the `filterMap` processes lines independently. -/
theorem produtosLines_middle_none (l : List Char) (h : lineRecord l = none)
    (pre post : List (List Char)) :
    produtosLines (pre ++ l :: post) = produtosLines (pre ++ post) := by
  simp [produtosLines, List.filterMap_append, List.filterMap_cons, h]

/-- Claim C1: contrary to the claim, the EN-format token `"1,234.56"` is not
normalized to `1234.56`: the Brazilian-first branch itself succeeds after
stripping the dot and reading the comma as a decimal point, so `br_to_float`
returns `1.23456`. -/
theorem C1_counterexample :
    br_to_float (some "1,234.56") = some (123456 / 100000 : ℚ) ∧
    (123456 / 100000 : ℚ) ≠ (123456 / 100 : ℚ) := by
  constructor
  · have h : br_to_float (some "1,234.56") = some (mkRat 123456 100000) := by decide
    rw [h]
    norm_num [Rat.mkRat_eq_div]
  · norm_num

/-- Claim C1 (amended): on `"1,234.56"` the BR branch succeeds and returns
`1.23456` (comma read as the decimal point); on the separator-free
`"1234.56"` the EN fallback returns `1234.56`; and when the BR
interpretation of a comma-containing token fails, the fallback re-parses the
same already-transformed string (its commas are gone), so it fails too and
`br_to_float` returns `None`, as on `"1,234,567.89"`. -/
theorem C1_amended_br_first :
    br_to_float (some "1,234.56") = some (123456 / 100000 : ℚ) ∧
    br_to_float (some "1234.56") = some (123456 / 100 : ℚ) ∧
    br_to_float (some "1,234,567.89") = none := by
  refine ⟨?_, ?_, by decide⟩
  · have h : br_to_float (some "1,234.56") = some (mkRat 123456 100000) := by decide
    rw [h]
    norm_num [Rat.mkRat_eq_div]
  · have h : br_to_float (some "1234.56") = some (mkRat 123456 100) := by decide
    rw [h]
    norm_num [Rat.mkRat_eq_div]

/-- Claim C2: contrary to the claim, for a text where `"Departamento:"` is
directly followed by a blank line, the line `"ACOUGUE"` and further text,
the sector guesser does not return `"ACOUGUE"`: the regex consumes up to 40
characters after the marker, the `ACOUGUE` line lies inside that consumed
window, and the function falls through to `"N/D"`. -/
theorem C2_counterexample :
    guess_setor "Departamento:\n\nACOUGUE\nxyz" "" = "N/D" ∧
    guess_setor "Departamento:\n\nACOUGUE\nxyz" "" ≠ "ACOUGUE" := by
  exact ⟨by decide, by decide⟩

/-- Claim C2 (amended): the up-to-40-character lookahead window is consumed,
not merely used as an anchor: the 5-line scan starts after the marker, the
following whitespace run and the window.  With exactly 40 non-whitespace
filler characters after the marker, an `"ACOUGUE"` line beyond the window is
found and returned; without the filler the same line falls inside the window
and the function returns `"N/D"`. -/
theorem C2_amended_window_consumed :
    guess_setor
        "Departamento:xxxxxxxxxxxxxxxxxxxxxxxxxxxxxxxxxxxxxxxx\n\nACOUGUE\nrest"
        "" = "ACOUGUE" ∧
    guess_setor "Departamento:\n\nACOUGUE\nxyz" "" = "N/D" := by
  exact ⟨by decide, by decide⟩

/-- Claim C4: the scenario line is stripped of its trailing 13-digit barcode
and then of its trailing 6-digit internal code, and parses to the record
with name `"ARROZ BRANCO 5KG"`, unit price `12.50`, quantity `3.0` and value
`37.50`. -/
theorem C4_scenario_line :
    stripCodes (cleanLine "ARROZ BRANCO 5KG 12,50 3,000 37,50 123456 7891234567890".data)
        = "ARROZ BRANCO 5KG 12,50 3,000 37,50".data ∧
    lineRecord "ARROZ BRANCO 5KG 12,50 3,000 37,50 123456 7891234567890".data
        = some ⟨"ARROZ BRANCO 5KG", 25 / 2, 3, 75 / 2⟩ := by
  constructor
  · decide
  · have h :
        lineRecord "ARROZ BRANCO 5KG 12,50 3,000 37,50 123456 7891234567890".data
          = some ⟨"ARROZ BRANCO 5KG", mkRat 1250 100, mkRat 3000 1000, mkRat 3750 100⟩ := by
      decide
    rw [h]
    norm_num [Rat.mkRat_eq_div, Produto.mk.injEq]

/-- Claim C8: a candidate line whose unit-price token fails to parse, or
parses to a non-positive value, is rejected by the validator: it produces no
record and the processing of all other lines is untouched (the embedding is
total, so no exception can arise). -/
theorem C8_nonpositive_price_rejected (raw nome preco qtd valor : List Char)
    (hc : lineCandidate raw = some (nome, preco, qtd, valor))
    (hp : brToFloatCore preco = none ∨ ∃ p, brToFloatCore preco = some p ∧ p ≤ 0) :
    lineRecord raw = none ∧
    ∀ pre post : List (List Char),
      produtosLines (pre ++ raw :: post) = produtosLines (pre ++ post) := by
  have hnone : lineRecord raw = none := by
    rcases hp with h | ⟨p, h, hle⟩
    · simp only [lineRecord, hc, h]
    · simp only [lineRecord, hc, h, if_pos hle]
  exact ⟨hnone, fun pre post => produtosLines_middle_none raw hnone pre post⟩

/-- Claim C8, witness: the line `"ABC DEF 0,00 1,000 5,00"` has unit price
`0` and is silently dropped. -/
theorem C8_witness :
    (lineCandidate "ABC DEF 0,00 1,000 5,00".data =
        some ("ABC DEF".data, "0,00".data, "1,000".data, "5,00".data)) ∧
    (brToFloatCore "0,00".data = some 0 ∧ (0 : ℚ) ≤ 0) ∧
    lineRecord "ABC DEF 0,00 1,000 5,00".data = none ∧
    produtosLines ([] ++ "ABC DEF 0,00 1,000 5,00".data :: ["OTHER ITEM 1,00 1,000 1,00".data])
      = produtosLines ([] ++ ["OTHER ITEM 1,00 1,000 1,00".data]) := by
  have h1 :
      lineCandidate "ABC DEF 0,00 1,000 5,00".data =
        some ("ABC DEF".data, "0,00".data, "1,000".data, "5,00".data) := by decide
  have h2 : brToFloatCore "0,00".data = some 0 := by decide
  have h3 := C8_nonpositive_price_rejected _ _ _ _ _ h1 (Or.inr ⟨0, h2, le_refl 0⟩)
  exact ⟨h1, ⟨h2, le_refl 0⟩, h3.1, h3.2 [] _⟩

/-- Claim C9: the core is fault tolerant line by line.  All three embedded
core functions are total Lean functions (they return a value on every input
by construction, which is the shallow rendering of "no exception escapes"),
and a line yielding no record leaves the processing of every other line
unchanged. -/
theorem C9_no_line_aborts (pre post : List (List Char)) (l : List Char)
    (h : lineRecord l = none) :
    produtosLines (pre ++ l :: post) = produtosLines (pre ++ post) :=
  produtosLines_middle_none l h pre post

/-- Claim C9, witness: a noise line between two product lines changes
nothing. -/
theorem C9_witness :
    lineRecord "@@@ ### !!!".data = none ∧
    produtosLines (["AAA BBB 1,00 2,000 2,00".data] ++ "@@@ ### !!!".data ::
        ["CCC DDD 3,00 1,000 3,00".data])
      = produtosLines (["AAA BBB 1,00 2,000 2,00".data] ++
        ["CCC DDD 3,00 1,000 3,00".data]) := by
  have h : lineRecord "@@@ ### !!!".data = none := by decide
  exact ⟨h, C9_no_line_aborts _ _ _ h⟩

/-- Enumeration of the whitespace class. -/
theorem isWS_cases {c : Char} (h : isWS c = true) :
    c = ' ' ∨ c = '\t' ∨ c = '\n' ∨ c = '\r' ∨ c = '\x0b' ∨ c = '\x0c' := by
  simp [isWS] at h
  tauto

/-- A digit is not a dot. -/
theorem digit_bne_dot {c : Char} (h : c.isDigit = true) : (c != '.') = true := by
  rw [bne_iff_ne]
  intro e
  subst e
  exact absurd h (by decide)

/-- A digit is not a comma. -/
theorem digit_bne_comma {c : Char} (h : c.isDigit = true) : (c != ',') = true := by
  rw [bne_iff_ne]
  intro e
  subst e
  exact absurd h (by decide)

/-- A numeric-class character is not whitespace. -/
theorem num_not_ws {c : Char} (h : isNum c = true) : isWS c = false := by
  cases hw : isWS c with
  | false => rfl
  | true =>
    exfalso
    rcases isWS_cases hw with e | e | e | e | e | e <;> subst e <;>
      exact absurd h (by decide)

/-- A digit is a numeric-class character. -/
theorem digit_isNum {c : Char} (h : c.isDigit = true) : isNum c = true := by
  simp [isNum, h]

/-- `takeWhile` keeps a list all whose elements satisfy the predicate. -/
theorem takeWhile_all {p : Char → Bool} {l : List Char}
    (h : ∀ c ∈ l, p c = true) : l.takeWhile p = l := by
  induction l with
  | nil => rfl
  | cons a t ih =>
    rw [List.takeWhile_cons_of_pos (h a (by simp))]
    rw [ih (fun c hc => h c (by simp [hc]))]

/-- `dropWhile` drops a list all whose elements satisfy the predicate. -/
theorem dropWhile_all {p : Char → Bool} {l : List Char}
    (h : ∀ c ∈ l, p c = true) : l.dropWhile p = [] := by
  induction l with
  | nil => rfl
  | cons a t ih =>
    rw [List.dropWhile_cons_of_pos (h a (by simp))]
    exact ih (fun c hc => h c (by simp [hc]))

/-- `takeWhile` over an append whose left part is all satisfied. -/
theorem takeWhile_append_all {p : Char → Bool} {l1 : List Char} (l2 : List Char)
    (h : ∀ c ∈ l1, p c = true) :
    (l1 ++ l2).takeWhile p = l1 ++ l2.takeWhile p := by
  induction l1 with
  | nil => simp
  | cons a t ih =>
    rw [List.cons_append, List.takeWhile_cons_of_pos (h a (by simp))]
    rw [ih (fun c hc => h c (by simp [hc]))]
    rfl

/-- `dropWhile` over an append whose left part is all satisfied. -/
theorem dropWhile_append_all {p : Char → Bool} {l1 : List Char} (l2 : List Char)
    (h : ∀ c ∈ l1, p c = true) :
    (l1 ++ l2).dropWhile p = l2.dropWhile p := by
  induction l1 with
  | nil => simp
  | cons a t ih =>
    rw [List.cons_append, List.dropWhile_cons_of_pos (h a (by simp))]
    exact ih (fun c hc => h c (by simp [hc]))

/-- `dropWhile` is the identity on a list with no satisfied element. -/
theorem dropWhile_all_false {p : Char → Bool} {l : List Char}
    (h : ∀ c ∈ l, p c = false) : l.dropWhile p = l := by
  cases l with
  | nil => rfl
  | cons a t =>
    exact List.dropWhile_cons_of_neg (by simp [h a (by simp)])

/-- `strip()` is the identity on a fully non-whitespace string. -/
theorem stripWS_all_nonws {l : List Char} (h : ∀ c ∈ l, isWS c = false) :
    stripWS l = l := by
  rw [stripWS, dropWhile_all_false h, dropWhile_all_false ?h, List.reverse_reverse]
  case h =>
    intro c hc
    exact h c (List.mem_reverse.mp hc)

/-- Claim C5: a Brazilian-format token — dot-separated digits, one comma,
then the decimal digits — is normalized to its exact decimal value: dots are
stripped, the comma becomes the decimal point, and the parse succeeds. -/
theorem C5_br_format (s : String) (A B : List Char)
    (hs : s.data = A ++ ',' :: B)
    (hA : ∀ c ∈ A, c.isDigit = true ∨ c = '.')
    (hB : ∀ c ∈ B, c.isDigit = true)
    (hne : ¬(A.filter (fun c => c != '.') = [] ∧ B = [])) :
    br_to_float (some s) =
      some ((natOfDigits (A.filter (fun c => c != '.')) : ℚ) +
        (natOfDigits B : ℚ) / 10 ^ B.length) := by
  have hA' : ∀ c ∈ A.filter (fun c => c != '.'), c.isDigit = true := by
    intro c hc
    rcases List.mem_filter.mp hc with ⟨hm, hne'⟩
    rcases hA c hm with h | h
    · exact h
    · exact absurd (bne_iff_ne.mp hne') (by simp [h])
  set A' := A.filter (fun c => c != '.') with hA'def
  -- the whole token is non-whitespace, so `strip()` changes nothing
  have hnws : ∀ c ∈ A ++ ',' :: B, isWS c = false := by
    intro c hc
    rcases List.mem_append.mp hc with h | h
    · rcases hA c h with h' | h'
      · exact num_not_ws (digit_isNum h')
      · subst h'; decide
    · rcases List.mem_cons.mp h with h' | h'
      · subst h'; decide
      · exact num_not_ws (digit_isNum (hB c h'))
  -- the BR transform sends the token to `A' ++ '.' :: B`
  have htr : brTransform (A ++ ',' :: B) = A' ++ '.' :: B := by
    rw [brTransform, List.filter_append, List.filter_cons]
    have hcomma : ((',' : Char) != '.') = true := by decide
    rw [if_pos hcomma]
    have hBf : B.filter (fun c => c != '.') = B := by
      rw [List.filter_eq_self.mpr]
      intro c hc
      exact digit_bne_dot (hB c hc)
    rw [hBf, List.map_append, List.map_cons]
    have hmapA : A'.map (fun c => if c = ',' then '.' else c) = A' := by
      rw [List.map_congr_left (g := id), List.map_id]
      intro c hc
      have : ¬(c = ',') := by
        intro e
        have := hA' c hc
        subst e
        exact absurd this (by decide)
      simp [this]
    have hmapB : B.map (fun c => if c = ',' then '.' else c) = B := by
      rw [List.map_congr_left (g := id), List.map_id]
      intro c hc
      have : ¬(c = ',') := by
        intro e
        have := hB c hc
        subst e
        exact absurd this (by decide)
      simp [this]
    rw [hmapA, hmapB]
    simp
  -- the transformed token parses as the decimal `A'.B`
  have hmag : pyFloatMag (A' ++ '.' :: B) =
      some (mkRat (natOfDigits A' * 10 ^ B.length + natOfDigits B) (10 ^ B.length)) := by
    have htk : (A' ++ '.' :: B).takeWhile Char.isDigit = A' := by
      rw [takeWhile_append_all _ hA', List.takeWhile_cons_of_neg (by decide)]
      simp
    have hdr : (A' ++ '.' :: B).dropWhile Char.isDigit = '.' :: B := by
      rw [dropWhile_append_all _ hA', List.dropWhile_cons_of_neg (by decide)]
    simp only [pyFloatMag, htk, hdr, takeWhile_all hB, dropWhile_all hB]
    simp [hne]
  have hpf : pyFloat (A' ++ '.' :: B) =
      some (mkRat (natOfDigits A' * 10 ^ B.length + natOfDigits B) (10 ^ B.length)) := by
    cases hA'' : A' with
    | nil =>
      rw [hA''] at hmag
      simp only [List.nil_append] at hmag ⊢
      simp only [pyFloat]
      rw [if_neg (by decide), if_neg (by decide)]
      exact hmag
    | cons a t =>
      have ha : a.isDigit = true := hA' a (by rw [hA'']; simp)
      have ha1 : ¬(a = '-') := by
        intro e; subst e; exact absurd ha (by decide)
      have ha2 : ¬(a = '+') := by
        intro e; subst e; exact absurd ha (by decide)
      rw [hA''] at hmag
      simp only [List.cons_append, pyFloat] at hmag ⊢
      rw [if_neg ha1, if_neg ha2]
      exact hmag
  -- assemble
  have hb2f : br_to_float (some s) = brToFloatCore s.data := rfl
  rw [hb2f, hs]
  simp only [brToFloatCore]
  rw [stripWS_all_nonws hnws]
  rw [if_pos (by simp : (',' : Char) ∈ A ++ ',' :: B)]
  rw [htr, hpf, mkRat_decimal]

/-- Claim C5, witness: `"1.234,56"` normalizes to `1234.56`. -/
theorem C5_witness :
    ("1.234,56".data = "1.234".data ++ ',' :: "56".data) ∧
    br_to_float (some "1.234,56") =
      some ((natOfDigits ("1.234".data.filter (fun c => c != '.')) : ℚ) +
        (natOfDigits "56".data : ℚ) / 10 ^ "56".data.length) ∧
    br_to_float (some "1.234,56") = some (123456 / 100 : ℚ) := by
  have h1 : "1.234,56".data = "1.234".data ++ ',' :: "56".data := by decide
  have h2 := C5_br_format "1.234,56" "1.234".data "56".data h1
    (by decide) (by decide) (by decide)
  refine ⟨h1, h2, ?_⟩
  rw [h2]
  have e1 : natOfDigits ("1.234".data.filter (fun c => c != '.')) = 1234 := by decide
  have e2 : natOfDigits "56".data = 56 := by decide
  have e3 : ("56".data).length = 2 := by decide
  rw [e1, e2, e3]
  norm_num

/-- Inserting into the ascending name sort is a permutation. -/
theorem insertAsc_perm (x : String) (l : List String) :
    (insertAsc x l).Perm (x :: l) := by
  induction l with
  | nil => exact List.Perm.refl _
  | cons y ys ih =>
    rw [insertAsc]
    by_cases h : strLt x y = true
    · rw [if_pos h]
    · rw [if_neg h]
      exact ((ih.cons y).trans (List.Perm.swap x y ys))

/-- The ascending name sort is a permutation. -/
theorem sortStrAsc_perm (l : List String) : (sortStrAsc l).Perm l := by
  induction l with
  | nil => exact List.Perm.refl _
  | cons x xs ih =>
    exact (insertAsc_perm x (sortStrAsc xs)).trans (ih.cons x)

/-- Inserting into the descending value sort is a permutation. -/
theorem insDesc_perm (x : Produto) (l : List Produto) :
    (insDesc x l).Perm (x :: l) := by
  induction l with
  | nil => exact List.Perm.refl _
  | cons y ys ih =>
    rw [insDesc]
    by_cases h : y.valor ≤ x.valor
    · rw [if_pos h]
    · rw [if_neg h]
      exact ((ih.cons y).trans (List.Perm.swap x y ys))

/-- The descending value sort is a permutation. -/
theorem sortValDesc_perm (l : List Produto) : (sortValDesc l).Perm l := by
  induction l with
  | nil => exact List.Perm.refl _
  | cons x xs ih =>
    exact (insDesc_perm x (sortValDesc xs)).trans (ih.cons x)

/-- Inserting by value into a value-descending list keeps it
value-descending. -/
theorem insDesc_sorted (x : Produto) (l : List Produto)
    (hl : l.Pairwise (fun a b => b.valor ≤ a.valor)) :
    (insDesc x l).Pairwise (fun a b => b.valor ≤ a.valor) := by
  induction l with
  | nil => simp [insDesc]
  | cons y ys ih =>
    rcases List.pairwise_cons.mp hl with ⟨hy, hys⟩
    rw [insDesc]
    by_cases h : y.valor ≤ x.valor
    · rw [if_pos h]
      refine List.pairwise_cons.mpr ⟨?_, hl⟩
      intro w hw
      rcases List.mem_cons.mp hw with e | hw2
      · rw [e]; exact h
      · exact le_trans (hy w hw2) h
    · rw [if_neg h]
      refine List.pairwise_cons.mpr ⟨?_, ih hys⟩
      intro w hw
      rcases List.mem_cons.mp ((insDesc_perm x ys).mem_iff.mp hw) with e | hw2
      · rw [e]; exact le_of_lt (lt_of_not_le h)
      · exact hy w hw2

/-- The result of the value sort is non-increasing in `valor`, whatever the
input arrangement. -/
theorem sortValDesc_sorted (l : List Produto) :
    (sortValDesc l).Pairwise (fun a b => b.valor ≤ a.valor) := by
  induction l with
  | nil => simp [sortValDesc]
  | cons x xs ih => exact insDesc_sorted x (sortValDesc xs) ih

/-- The names of the aggregated rows are the sorted distinct input names. -/
theorem aggregate_names (rs : List Produto) :
    (aggregate rs).map Produto.nome = sortStrAsc ((rs.map Produto.nome).dedup) := by
  rw [aggregate, List.map_map]
  have : (Produto.nome ∘ combine rs) = id := by
    funext n
    rfl
  rw [this, List.map_id]

/-- Claim C3: contrary to the claim, equal-value ties are not in input
order.  The names `"BBB PROD"` (first in the input) and `"AAA PROD"`
(second) have equal value `5,00`, yet the output lists `"AAA PROD"` first:
the groupby sorts the group keys alphabetically before the value sort. -/
theorem C3_counterexample :
    (parse_lince_lines "BBB PROD 1,00 1,000 5,00\nAAA PROD 2,00 1,000 5,00").map
        Produto.nome = ["AAA PROD", "BBB PROD"] ∧
    (parse_lince_lines "BBB PROD 1,00 1,000 5,00\nAAA PROD 2,00 1,000 5,00").map
        Produto.nome ≠ ["BBB PROD", "AAA PROD"] := by
  exact ⟨by decide, by decide⟩

/-- Claim C3 (amended): the output of `parse_lince_lines` is sorted by
value in non-increasing order; equal-value ties are not guaranteed to
preserve input order (the groupby reorders the names alphabetically before
the value sort, and pandas' default sort leaves the tie order unspecified),
so only the value ordering itself is a property of the program. -/
theorem C3_amended_sorted (text : String) :
    (parse_lince_lines text).Pairwise (fun a b => b.valor ≤ a.valor) := by
  rw [parse_lince_lines]
  exact sortValDesc_sorted _

/-- Claim C3, instance: the amended order on a concrete two-line input. -/
theorem C3_amended_witness :
    (parse_lince_lines "BBB PROD 1,00 1,000 5,00\nAAA PROD 2,00 1,000 5,00").Pairwise
      (fun a b => b.valor ≤ a.valor) :=
  C3_amended_sorted "BBB PROD 1,00 1,000 5,00\nAAA PROD 2,00 1,000 5,00"

/-- Claim C7: after aggregation no two output records share a name. -/
theorem C7_unique_names (text : String) :
    ((parse_lince_lines text).map Produto.nome).Nodup := by
  rw [parse_lince_lines]
  have hp := (sortValDesc_perm (aggregate (produtosLines (splitNl text.data)))).map
    Produto.nome
  rw [hp.nodup_iff, aggregate_names]
  rw [(sortStrAsc_perm _).nodup_iff]
  exact List.nodup_dedup _

/-- Claim C7, instance: uniqueness on a concrete input with a duplicate
product name. -/
theorem C7_witness :
    ((parse_lince_lines "X ITEM 2,00 1,000 2,00\nX ITEM 4,00 2,000 8,00").map
        Produto.nome).Nodup :=
  C7_unique_names "X ITEM 2,00 1,000 2,00\nX ITEM 4,00 2,000 8,00"

/-- Claim C6: for each name occurring among the validated records, the
aggregated-and-sorted output contains exactly one record with that name, and
its quantity and value are the sums over the name's group while its unit
price is the group's arithmetic mean. -/
theorem C6_group_sums (rs : List Produto) (n : String)
    (hn : n ∈ rs.map Produto.nome) :
    ((sortValDesc (aggregate rs)).map Produto.nome).count n = 1 ∧
    ∀ r ∈ sortValDesc (aggregate rs), r.nome = n →
      r.quantidade = ((rs.filter (fun s => s.nome == n)).map Produto.quantidade).sum ∧
      r.valor = ((rs.filter (fun s => s.nome == n)).map Produto.valor).sum ∧
      r.preco_unit = ((rs.filter (fun s => s.nome == n)).map Produto.preco_unit).sum /
        ((rs.filter (fun s => s.nome == n)).length : ℚ) := by
  constructor
  · rw [((sortValDesc_perm (aggregate rs)).map Produto.nome).count_eq]
    rw [aggregate_names, (sortStrAsc_perm _).count_eq]
    exact List.count_eq_one_of_mem (List.nodup_dedup _) (List.mem_dedup.mpr hn)
  · intro r hr hname
    have hr2 : r ∈ aggregate rs := (sortValDesc_perm (aggregate rs)).mem_iff.mp hr
    rcases List.mem_map.mp hr2 with ⟨m, _, hcomb⟩
    have hm : m = n := by
      rw [← hname, ← hcomb]
      rfl
    subst hm
    rw [← hcomb]
    refine ⟨?_, ?_, ?_⟩
    · rw [combine]
      exact ratSum_eq _
    · rw [combine]
      exact ratSum_eq _
    · rw [combine]
      rw [ratDivNat_eq, ratSum_eq]

/-- Claim C6, witness: two same-name records aggregate to one record with
summed quantity `6`, summed value `8` and mean unit price `2`. -/
theorem C6_witness :
    ("AAA" ∈ ([⟨"AAA", 1, 2, 3⟩, ⟨"AAA", 3, 4, 5⟩] : List Produto).map Produto.nome) ∧
    (((sortValDesc (aggregate [⟨"AAA", 1, 2, 3⟩, ⟨"AAA", 3, 4, 5⟩])).map
        Produto.nome).count "AAA" = 1 ∧
      ∀ r ∈ sortValDesc (aggregate ([⟨"AAA", 1, 2, 3⟩, ⟨"AAA", 3, 4, 5⟩] : List Produto)),
        r.nome = "AAA" →
        r.quantidade = ((([⟨"AAA", 1, 2, 3⟩, ⟨"AAA", 3, 4, 5⟩] : List Produto).filter
            (fun s => s.nome == "AAA")).map Produto.quantidade).sum ∧
        r.valor = ((([⟨"AAA", 1, 2, 3⟩, ⟨"AAA", 3, 4, 5⟩] : List Produto).filter
            (fun s => s.nome == "AAA")).map Produto.valor).sum ∧
        r.preco_unit = ((([⟨"AAA", 1, 2, 3⟩, ⟨"AAA", 3, 4, 5⟩] : List Produto).filter
            (fun s => s.nome == "AAA")).map Produto.preco_unit).sum /
          ((([⟨"AAA", 1, 2, 3⟩, ⟨"AAA", 3, 4, 5⟩] : List Produto).filter
            (fun s => s.nome == "AAA")).length : ℚ)) :=
  ⟨by decide, C6_group_sums [⟨"AAA", 1, 2, 3⟩, ⟨"AAA", 3, 4, 5⟩] "AAA" (by decide)⟩

/-- A line is its first token followed by the separated rest. -/
theorem intercalateSp_eq_tailToks (t : List Char) (ts : List (List Char)) :
    intercalateSp (t :: ts) = t ++ tailToks ts := by
  cases ts with
  | nil => simp [intercalateSp, tailToks]
  | cons u us => simp [intercalateSp, tailToks]

/-- Appending one more token to a nonempty line. -/
theorem intercalateSp_append_single (A : List (List Char)) (t : List Char)
    (hA : A ≠ []) :
    intercalateSp (A ++ [t]) = intercalateSp A ++ ' ' :: t := by
  induction A with
  | nil => exact absurd rfl hA
  | cons a A' ih =>
    cases A' with
    | nil => simp [intercalateSp]
    | cons b A'' =>
      have h1 : intercalateSp ((a :: b :: A'') ++ [t])
          = a ++ ' ' :: intercalateSp ((b :: A'') ++ [t]) := by
        simp [intercalateSp]
      have h2 : intercalateSp (a :: b :: A'') = a ++ ' ' :: intercalateSp (b :: A'') := by
        simp [intercalateSp]
      rw [h1, ih (by simp), h2]
      simp

/-- A line starting with a nonempty token starts with that token's head. -/
theorem intercalateSp_cons_shape (c : Char) (t' : List Char)
    (ts : List (List Char)) :
    ∃ X, intercalateSp ((c :: t') :: ts) = c :: X := by
  cases ts with
  | nil => exact ⟨t', rfl⟩
  | cons u us => exact ⟨t' ++ ' ' :: intercalateSp (u :: us), rfl⟩

/-- A line of nonempty tokens is nonempty. -/
theorem intercalateSp_ne_nil (toks : List (List Char)) (hne : toks ≠ [])
    (htok : ∀ t ∈ toks, t ≠ []) : intercalateSp toks ≠ [] := by
  cases toks with
  | nil => exact absurd rfl hne
  | cons t ts =>
    cases ht : t with
    | nil => exact absurd ht (htok t (by simp))
    | cons c t' =>
      rcases intercalateSp_cons_shape c t' ts with ⟨X, hX⟩
      rw [hX]
      simp

/-- Prepending a non-whitespace character keeps `noDbl`. -/
theorem noDbl_cons_nonws {a : Char} {l : List Char} (ha : isWS a = false)
    (hl : noDbl l) : noDbl (a :: l) := by
  cases l with
  | nil => trivial
  | cons b rest =>
    exact ⟨fun h => by rw [ha] at h; exact absurd h.1 (by simp), hl⟩

/-- Prepending a whitespace-free block keeps `noDbl`. -/
theorem noDbl_append_block {t l : List Char} (ht : ∀ c ∈ t, isWS c = false)
    (hl : noDbl l) : noDbl (t ++ l) := by
  induction t with
  | nil => exact hl
  | cons c t' ih =>
    exact noDbl_cons_nonws (ht c (by simp))
      (ih (fun x hx => ht x (by simp [hx])))

/-- Prepending a space before a line whose head is not whitespace keeps
`noDbl`. -/
theorem noDbl_cons_sp {l : List Char} (hl : noDbl l)
    (hhead : ∀ c rest, l = c :: rest → isWS c = false) : noDbl (' ' :: l) := by
  cases l with
  | nil => trivial
  | cons c rest =>
    refine ⟨fun h => ?_, hl⟩
    rw [hhead c rest rfl] at h
    exact absurd h.2 (by simp)

/-- A space-joined list of nonempty whitespace-free tokens has no double
whitespace. -/
theorem noDbl_intercalateSp (toks : List (List Char))
    (htok : ∀ t ∈ toks, t ≠ [] ∧ ∀ c ∈ t, isWS c = false) :
    noDbl (intercalateSp toks) := by
  induction toks with
  | nil => trivial
  | cons t ts ih =>
    rw [intercalateSp_eq_tailToks]
    apply noDbl_append_block (htok t (by simp)).2
    cases ts with
    | nil => trivial
    | cons u us =>
      show noDbl (' ' :: intercalateSp (u :: us))
      apply noDbl_cons_sp (ih (fun x hx => htok x (by simp [hx])))
      intro c rest hcr
      cases hu : u with
      | nil => exact absurd hu ((htok u (by simp)).1)
      | cons c0 u' =>
        rcases intercalateSp_cons_shape c0 u' us with ⟨X, hX⟩
        rw [hu, hX] at hcr
        injection hcr with h1 _
        rw [← h1]
        exact (htok u (by simp)).2 c0 (by rw [hu]; simp)

/-- Whitespace collapsing is the identity on a line with no double
whitespace. -/
theorem collapseWS_eq_self : ∀ l : List Char, noDbl l → collapseWS l = l := by
  intro l
  induction l with
  | nil => intro _; rfl
  | cons a rest ih =>
    intro h
    cases rest with
    | nil =>
      rw [collapseWS]
      by_cases ha : isWS a
      · simp [ha]
      · simp [ha, collapseWS]
    | cons b rest2 =>
      rcases h with ⟨hab, hrest⟩
      rw [collapseWS]
      by_cases ha : isWS a
      · have hb : isWS b = false := by
          cases hbv : isWS b with
          | false => rfl
          | true => exact absurd ⟨by simp [ha], hbv⟩ hab
        simp only [ha, if_true]
        rw [if_neg (by simp [hb])]
        rw [ih hrest]
      · simp only [ha]
        rw [if_neg (by simp [ha]), ih hrest]

/-- `dropWhile` is the identity when the head (if any) fails the predicate. -/
theorem dropWhile_eq_self_of_head {p : Char → Bool} (l : List Char)
    (h : ∀ c, l.head? = some c → p c = false) : l.dropWhile p = l := by
  cases l with
  | nil => rfl
  | cons c rest => exact List.dropWhile_cons_of_neg (by simp [h c rfl])

/-- `strip()` is the identity when neither end is whitespace. -/
theorem stripWS_eq_self_of_ends (l : List Char)
    (h1 : ∀ c, l.head? = some c → isWS c = false)
    (h2 : ∀ c, l.getLast? = some c → isWS c = false) : stripWS l = l := by
  rw [stripWS, dropWhile_eq_self_of_head l h1]
  rw [dropWhile_eq_self_of_head l.reverse
    (fun c hc => h2 c (by rw [← List.head?_reverse]; exact hc))]
  exact List.reverse_reverse l

/-- `strip()` removes exactly one trailing space from a line whose own ends
are not whitespace. -/
theorem stripWS_append_sp (l : List Char)
    (h1 : ∀ c, l.head? = some c → isWS c = false)
    (h2 : ∀ c, l.getLast? = some c → isWS c = false) :
    stripWS (l ++ [' ']) = l := by
  cases l with
  | nil => rfl
  | cons a rest =>
    rw [stripWS]
    rw [List.cons_append, List.dropWhile_cons_of_neg (by simp [h1 a rfl])]
    have hrev : ((a :: rest) ++ [' ']).reverse = ' ' :: ((a :: rest).reverse) := by
      simp
    rw [← List.cons_append, hrev]
    rw [List.dropWhile_cons_of_pos (by decide)]
    rw [dropWhile_eq_self_of_head (a :: rest).reverse
      (fun c hc => h2 c (by rw [← List.head?_reverse]; exact hc))]
    exact List.reverse_reverse _

/-- The head of a space-joined line of nonempty whitespace-free tokens is
not whitespace. -/
theorem intercalateSp_head_nonws (toks : List (List Char))
    (htok : ∀ t ∈ toks, t ≠ [] ∧ ∀ c ∈ t, isWS c = false) :
    ∀ c, (intercalateSp toks).head? = some c → isWS c = false := by
  intro c hc
  cases toks with
  | nil => simp [intercalateSp] at hc
  | cons t ts =>
    rcases htok t (by simp) with ⟨hne, hws⟩
    cases ht : t with
    | nil => exact absurd ht hne
    | cons c0 t' =>
      rcases intercalateSp_cons_shape c0 t' ts with ⟨X, hX⟩
      rw [ht, hX] at hc
      simp at hc
      rw [← hc]
      exact hws c0 (by rw [ht]; simp)

/-- The last character of a space-joined line of nonempty whitespace-free
tokens is not whitespace. -/
theorem intercalateSp_getLast_nonws (toks : List (List Char))
    (htok : ∀ t ∈ toks, t ≠ [] ∧ ∀ c ∈ t, isWS c = false) :
    ∀ c, (intercalateSp toks).getLast? = some c → isWS c = false := by
  induction toks with
  | nil => intro c hc; simp [intercalateSp] at hc
  | cons t ts ih =>
    intro c hc
    cases ts with
    | nil =>
      have : intercalateSp [t] = t := rfl
      rw [this] at hc
      exact (htok t (by simp)).2 c (List.mem_of_mem_getLast? hc)
    | cons u us =>
      have hsh : intercalateSp (t :: u :: us) = t ++ ' ' :: intercalateSp (u :: us) := by
        simp [intercalateSp]
      rw [hsh, List.getLast?_append] at hc
      have hne2 : intercalateSp (u :: us) ≠ [] :=
        intercalateSp_ne_nil (u :: us) (by simp)
          (fun x hx => (htok x (by simp [hx])).1)
      have hlast : (' ' :: intercalateSp (u :: us)).getLast? =
          (intercalateSp (u :: us)).getLast? := by
        cases hI : intercalateSp (u :: us) with
        | nil => exact absurd hI hne2
        | cons i0 irest => simp [List.getLast?_cons_cons]
      rw [hlast] at hc
      cases hI : (intercalateSp (u :: us)).getLast? with
      | none =>
        rw [hI] at hc
        simp at hc
        exact absurd (List.getLast?_eq_none_iff.mp hI) hne2
      | some c1 =>
        rw [hI] at hc
        simp at hc
        rw [← hc]
        exact ih (fun x hx => htok x (by simp [hx])) c1 hI

/-- When a line ends in a standalone digit run of admissible length, the
`\b\d{lo,hi}\b$` substitution removes exactly that run. -/
theorem stripTrailing_fire (lo hi : Nat) (Y : List Char) (b : Char)
    (r : List Char) (hr : ∀ c ∈ r, c.isDigit = true) (hb : b.isDigit = false)
    (hw : isWordChar b = false) (h1 : lo ≤ r.length) (h2 : r.length ≤ hi) :
    stripTrailing lo hi (Y ++ b :: r) = Y ++ [b] := by
  have hrev : (Y ++ b :: r).reverse = r.reverse ++ b :: Y.reverse := by
    simp
  have hrd : ∀ c ∈ r.reverse, c.isDigit = true :=
    fun c hc => hr c (List.mem_reverse.mp hc)
  have htk : (r.reverse ++ b :: Y.reverse).takeWhile Char.isDigit = r.reverse := by
    rw [takeWhile_append_all _ hrd, List.takeWhile_cons_of_neg (by simp [hb])]
    simp
  have hdr : (r.reverse ++ b :: Y.reverse).dropWhile Char.isDigit = b :: Y.reverse := by
    rw [dropWhile_append_all _ hrd, List.dropWhile_cons_of_neg (by simp [hb])]
  rw [stripTrailing]
  simp only [hrev, htk, hdr]
  rw [if_pos ⟨by simpa using h1, by simpa using h2, by simp [hw]⟩]
  simp

/-- When the trailing digit run's length is out of range, the substitution
leaves the line unchanged. -/
theorem stripTrailing_skip (lo hi : Nat) (Y : List Char) (b : Char)
    (r : List Char) (hr : ∀ c ∈ r, c.isDigit = true) (hb : b.isDigit = false)
    (hlen : ¬(lo ≤ r.length ∧ r.length ≤ hi)) :
    stripTrailing lo hi (Y ++ b :: r) = Y ++ b :: r := by
  have hrev : (Y ++ b :: r).reverse = r.reverse ++ b :: Y.reverse := by
    simp
  have hrd : ∀ c ∈ r.reverse, c.isDigit = true :=
    fun c hc => hr c (List.mem_reverse.mp hc)
  have htk : (r.reverse ++ b :: Y.reverse).takeWhile Char.isDigit = r.reverse := by
    rw [takeWhile_append_all _ hrd, List.takeWhile_cons_of_neg (by simp [hb])]
    simp
  rw [stripTrailing]
  simp only [hrev, htk]
  split_ifs with hcond
  · exact absurd ⟨by simpa using hcond.1, by simpa using hcond.2.1⟩ hlen
  · rfl

/-- `noTriple` holds after dropping the first token. -/
theorem noTriple_tail {a : List Char} {rest : List (List Char)}
    (h : noTriple (a :: rest)) : noTriple rest := by
  match rest with
  | [] => trivial
  | [_] => trivial
  | b :: c :: rest2 => exact h.2

/-- Prepending a non-numeric token keeps `noTriple`. -/
theorem noTriple_cons {a : List Char} {l : List (List Char)}
    (ha : ¬allNumP a) (hl : noTriple l) : noTriple (a :: l) := by
  match l with
  | [] => trivial
  | [_] => trivial
  | b :: c :: rest => exact ⟨fun h => ha h.1, hl⟩

/-- A list whose elements are non-numeric except for at most two trailing
tokens has no numeric triple. -/
theorem noTriple_of_append (A B : List (List Char))
    (hA : ∀ t ∈ A, ¬allNumP t) (hB : B.length ≤ 2) : noTriple (A ++ B) := by
  induction A with
  | nil =>
    match B, hB with
    | [], _ => trivial
    | [_], _ => trivial
    | [_, _], _ => trivial
  | cons a A' ih =>
    exact noTriple_cons (hA a (by simp))
      (ih (fun t ht => hA t (by simp [ht])))

/-- `takeWhile` over an append stops inside a left part that contains a
failing element. -/
theorem takeWhile_append_left {p : Char → Bool} (l1 l2 : List Char)
    (h : l1.dropWhile p ≠ []) :
    (l1 ++ l2).takeWhile p = l1.takeWhile p := by
  induction l1 with
  | nil => exact absurd rfl h
  | cons c r ih =>
    by_cases hc : p c = true
    · rw [List.cons_append, List.takeWhile_cons_of_pos hc,
        List.takeWhile_cons_of_pos hc]
      rw [ih (by rwa [List.dropWhile_cons_of_pos hc] at h)]
    · rw [List.cons_append, List.takeWhile_cons_of_neg (by simp [hc]),
        List.takeWhile_cons_of_neg (by simp [hc])]

/-- `dropWhile` over an append when the left part survives. -/
theorem dropWhile_append_left {p : Char → Bool} (l1 l2 : List Char)
    (a : Char) (t : List Char) (h : l1.dropWhile p = a :: t) :
    (l1 ++ l2).dropWhile p = a :: (t ++ l2) := by
  induction l1 with
  | nil => simp at h
  | cons c r ih =>
    by_cases hc : p c = true
    · rw [List.dropWhile_cons_of_pos hc] at h
      rw [List.cons_append, List.dropWhile_cons_of_pos hc]
      exact ih h
    · rw [List.dropWhile_cons_of_neg (by simp [hc])] at h
      injection h with h1 h2
      rw [List.cons_append, List.dropWhile_cons_of_neg (by simp [hc]), h1, h2]

/-- `wsNumStep` fails on a list whose head is not whitespace. -/
theorem wsNumStep_head_nonws {c : Char} {rest : List Char}
    (hc : isWS c = false) : wsNumStep (c :: rest) = none := by
  rw [wsNumStep]
  rw [List.takeWhile_cons_of_neg (by simp [hc])]
  simp

/-- `wsNumStep` fails on the empty remainder. -/
theorem wsNumStep_nil : wsNumStep [] = none := by
  rfl

/-- One pattern step over a space followed by an all-numeric token consumes
exactly that token. -/
theorem wsNumStep_sp_allnum (t : List Char) (ts : List (List Char))
    (htok : ∀ x ∈ t :: ts, x ≠ [] ∧ ∀ c ∈ x, isWS c = false)
    (hall : ∀ c ∈ t, isNum c = true) :
    wsNumStep (' ' :: intercalateSp (t :: ts)) = some (t, tailToks ts) := by
  rcases htok t (by simp) with ⟨hne, hws⟩
  rw [intercalateSp_eq_tailToks]
  have hhead : (t ++ tailToks ts).takeWhile isWS = [] := by
    cases ht : t with
    | nil => exact absurd ht hne
    | cons c t' =>
      exact List.takeWhile_cons_of_neg
        (by simp [hws c (by rw [ht]; simp)])
  have hTsh : tailToks ts = [] ∨ ∃ Z, tailToks ts = ' ' :: Z := by
    cases ts with
    | nil => exact Or.inl rfl
    | cons u us => exact Or.inr ⟨intercalateSp (u :: us), rfl⟩
  have hnum : ∀ c ∈ t, isNum c = true := hall
  have htkN : (t ++ tailToks ts).takeWhile isNum = t := by
    rw [takeWhile_append_all _ hnum]
    rcases hTsh with h | ⟨Z, h⟩
    · simp [h]
    · rw [h, List.takeWhile_cons_of_neg (by decide)]
      simp
  have hdrN : (t ++ tailToks ts).dropWhile isNum = tailToks ts := by
    rw [dropWhile_append_all _ hnum]
    rcases hTsh with h | ⟨Z, h⟩
    · simp [h]
    · rw [h, List.dropWhile_cons_of_neg (by decide)]
  rw [wsNumStep]
  rw [List.takeWhile_cons_of_pos (by decide), hhead]
  rw [List.dropWhile_cons_of_pos (by decide)]
  have hdrWS : (t ++ tailToks ts).dropWhile isWS = t ++ tailToks ts := by
    apply dropWhile_eq_self_of_head
    intro c hc
    cases ht : t with
    | nil => exact absurd ht hne
    | cons c0 t' =>
      rw [ht] at hc
      simp at hc
      rw [← hc]
      exact hws c0 (by rw [ht]; simp)
  rw [hdrWS, htkN, hdrN]
  simp [hne]

/-- One pattern step over a space followed by a token containing a
non-numeric character either fails or leaves a remainder headed by a
non-whitespace character. -/
theorem wsNumStep_sp_notallnum (t T : List Char) (ht : t ≠ [])
    (hws : ∀ c ∈ t, isWS c = false)
    (hnot : ¬(∀ c ∈ t, isNum c = true)) :
    wsNumStep (' ' :: (t ++ T)) = none ∨
    ∃ n c0 t2, wsNumStep (' ' :: (t ++ T)) = some (n, c0 :: (t2 ++ T)) ∧
      isWS c0 = false := by
  have hdne : t.dropWhile isNum ≠ [] := by
    intro he
    exact hnot (List.dropWhile_eq_nil_iff.mp he)
  obtain ⟨c0, t2, hdt⟩ : ∃ c0 t2, t.dropWhile isNum = c0 :: t2 := by
    cases hd : t.dropWhile isNum with
    | nil => exact absurd hd hdne
    | cons a b => exact ⟨a, b, rfl⟩
  have hc0 : isWS c0 = false := by
    have : c0 ∈ t := (List.dropWhile_sublist isNum).subset (by rw [hdt]; simp)
    exact hws c0 this
  have hhead : (t ++ T).takeWhile isWS = [] := by
    cases htc : t with
    | nil => exact absurd htc ht
    | cons c t' =>
      exact List.takeWhile_cons_of_neg (by simp [hws c (by rw [htc]; simp)])
  have hdrWS : (t ++ T).dropWhile isWS = t ++ T := by
    apply dropWhile_eq_self_of_head
    intro c hc
    cases htc : t with
    | nil => exact absurd htc ht
    | cons c1 t' =>
      rw [htc] at hc
      simp at hc
      rw [← hc]
      exact hws c1 (by rw [htc]; simp)
  have htkN : (t ++ T).takeWhile isNum = t.takeWhile isNum :=
    takeWhile_append_left t T hdne
  have hdrN : (t ++ T).dropWhile isNum = c0 :: (t2 ++ T) :=
    dropWhile_append_left t T c0 t2 hdt
  rw [wsNumStep]
  rw [List.takeWhile_cons_of_pos (by decide), hhead]
  rw [List.dropWhile_cons_of_pos (by decide), hdrWS, htkN, hdrN]
  by_cases hn : (t.takeWhile isNum).isEmpty
  · left
    simp [hn]
  · right
    refine ⟨t.takeWhile isNum, c0, t2, ?_, hc0⟩
    simp [hn]

/-- The product-pattern tail never matches at a space boundary of a line
whose tokens contain no three consecutive all-numeric tokens. -/
theorem restMatch_sp (toks : List (List Char))
    (htok : ∀ t ∈ toks, t ≠ [] ∧ ∀ c ∈ t, isWS c = false)
    (hno : noTriple toks) :
    restMatch (' ' :: intercalateSp toks) = none := by
  cases toks with
  | nil => decide
  | cons t1 ts1 =>
    rcases htok t1 (by simp) with ⟨ne1, ws1⟩
    by_cases h1 : ∀ c ∈ t1, isNum c = true
    · cases ts1 with
      | nil =>
        have e1 : wsNumStep (' ' :: intercalateSp (t1 :: ([] : List (List Char)))) =
            some (t1, []) := wsNumStep_sp_allnum t1 [] htok h1
        simp only [restMatch, e1, wsNumStep_nil]
      | cons t2 ts2 =>
        have e1 : wsNumStep (' ' :: intercalateSp (t1 :: t2 :: ts2)) =
            some (t1, ' ' :: intercalateSp (t2 :: ts2)) :=
          wsNumStep_sp_allnum t1 (t2 :: ts2) htok h1
        rcases htok t2 (by simp) with ⟨ne2, ws2⟩
        by_cases h2 : ∀ c ∈ t2, isNum c = true
        · cases ts2 with
          | nil =>
            have e2 : wsNumStep (' ' :: intercalateSp (t2 :: ([] : List (List Char)))) =
                some (t2, []) :=
              wsNumStep_sp_allnum t2 [] (fun x hx => htok x (List.mem_cons_of_mem t1 hx)) h2
            simp only [restMatch, e1, e2, wsNumStep_nil]
          | cons t3 ts3 =>
            have e2 : wsNumStep (' ' :: intercalateSp (t2 :: t3 :: ts3)) =
                some (t2, ' ' :: intercalateSp (t3 :: ts3)) :=
              wsNumStep_sp_allnum t2 (t3 :: ts3) (fun x hx => htok x (List.mem_cons_of_mem t1 hx)) h2
            rcases htok t3 (by simp) with ⟨ne3, ws3⟩
            by_cases h3 : ∀ c ∈ t3, isNum c = true
            · exact absurd ⟨⟨ne1, h1⟩, ⟨ne2, h2⟩, ⟨ne3, h3⟩⟩ hno.1
            · rcases wsNumStep_sp_notallnum t3 (tailToks ts3) ne3 ws3 h3 with
                s3 | ⟨n, c0, tt2, s3, hc0⟩
              · have e3 : wsNumStep (' ' :: intercalateSp (t3 :: ts3)) = none := by
                  rw [intercalateSp_eq_tailToks]
                  exact s3
                simp only [restMatch, e1, e2, e3]
              · have e3 : wsNumStep (' ' :: intercalateSp (t3 :: ts3)) =
                    some (n, c0 :: (tt2 ++ tailToks ts3)) := by
                  rw [intercalateSp_eq_tailToks]
                  exact s3
                simp only [restMatch, e1, e2, e3]
                simp [hc0]
        · rcases wsNumStep_sp_notallnum t2 (tailToks ts2) ne2 ws2 h2 with
            s2 | ⟨n, c0, tt2, s2, hc0⟩
          · have e2 : wsNumStep (' ' :: intercalateSp (t2 :: ts2)) = none := by
              rw [intercalateSp_eq_tailToks]
              exact s2
            simp only [restMatch, e1, e2]
          · have e2 : wsNumStep (' ' :: intercalateSp (t2 :: ts2)) =
                some (n, c0 :: (tt2 ++ tailToks ts2)) := by
              rw [intercalateSp_eq_tailToks]
              exact s2
            have e3 : wsNumStep (c0 :: (tt2 ++ tailToks ts2)) = none :=
              wsNumStep_head_nonws hc0
            simp only [restMatch, e1, e2, e3]
    · rcases wsNumStep_sp_notallnum t1 (tailToks ts1) ne1 ws1 h1 with
        s1 | ⟨n, c0, tt2, s1, hc0⟩
      · have e1 : wsNumStep (' ' :: intercalateSp (t1 :: ts1)) = none := by
          rw [intercalateSp_eq_tailToks]
          exact s1
        simp only [restMatch, e1]
      · have e1 : wsNumStep (' ' :: intercalateSp (t1 :: ts1)) =
            some (n, c0 :: (tt2 ++ tailToks ts1)) := by
          rw [intercalateSp_eq_tailToks]
          exact s1
        have e2 : wsNumStep (c0 :: (tt2 ++ tailToks ts1)) = none :=
          wsNumStep_head_nonws hc0
        simp only [restMatch, e1, e2]

/-- `restMatch` fails on a remainder headed by a non-whitespace character. -/
theorem restMatch_head_nonws {c : Char} {rest : List Char}
    (hc : isWS c = false) : restMatch (c :: rest) = none := by
  rw [restMatch, wsNumStep_head_nonws hc]

/-- The lazy name search fails along every suffix of a line of tokens with
no three consecutive all-numeric tokens. -/
theorem matchGo_none (toks : List (List Char))
    (htok : ∀ t ∈ toks, t ≠ [] ∧ ∀ c ∈ t, isWS c = false)
    (hno : noTriple toks) :
    ∀ tsuf : List Char, (∀ c ∈ tsuf, isWS c = false) →
      ∀ acc : List Char, matchGo acc (tsuf ++ tailToks toks) = none := by
  induction toks with
  | nil =>
    intro tsuf
    induction tsuf with
    | nil =>
      intro _ acc
      rfl
    | cons c t' ih =>
      intro hws acc
      have hc : isWS c = false := hws c (by simp)
      have hr : restMatch (c :: (t' ++ tailToks ([] : List (List Char)))) = none :=
        restMatch_head_nonws hc
      rw [List.cons_append, matchGo, hr]
      exact ih (fun x hx => hws x (by simp [hx])) (c :: acc)
  | cons t ts ih =>
    have htok' : ∀ x ∈ ts, x ≠ [] ∧ ∀ c ∈ x, isWS c = false :=
      fun x hx => htok x (by simp [hx])
    have hno' : noTriple ts := noTriple_tail hno
    intro tsuf
    induction tsuf with
    | nil =>
      intro _ acc
      have hr : restMatch (' ' :: intercalateSp (t :: ts)) = none :=
        restMatch_sp (t :: ts) htok hno
      show matchGo acc (' ' :: intercalateSp (t :: ts)) = none
      rw [matchGo, hr]
      have hsplit : intercalateSp (t :: ts) = t ++ tailToks ts :=
        intercalateSp_eq_tailToks t ts
      rw [hsplit]
      exact ih htok' hno' t (htok t (by simp)).2 (' ' :: acc)
    | cons c t' ih2 =>
      intro hws acc
      have hc : isWS c = false := hws c (by simp)
      have hr : restMatch (c :: (t' ++ tailToks (t :: ts))) = none :=
        restMatch_head_nonws hc
      rw [List.cons_append, matchGo, hr]
      exact ih2 (fun x hx => hws x (by simp [hx])) (c :: acc)

/-- The product pattern does not match a space-joined line of tokens
containing no three consecutive all-numeric tokens. -/
theorem matchPatt_none (toks : List (List Char)) (hne : toks ≠ [])
    (htok : ∀ t ∈ toks, t ≠ [] ∧ ∀ c ∈ t, isWS c = false)
    (hno : noTriple toks) :
    matchPatt (intercalateSp toks) = none := by
  cases toks with
  | nil => exact absurd rfl hne
  | cons t ts =>
    rcases htok t (by simp) with ⟨hne1, hws1⟩
    cases ht : t with
    | nil => exact absurd ht hne1
    | cons c t0 =>
      subst ht
      rw [intercalateSp_eq_tailToks, List.cons_append]
      show matchGo [c] (t0 ++ tailToks ts) = none
      exact matchGo_none ts (fun x hx => htok x (by simp [hx]))
        (noTriple_tail hno) t0 (fun x hx => hws1 x (by simp [hx])) [c]

/-- A numeric-class character that is not a digit is a dot or a comma, so
not a word character. -/
theorem num_nondigit_not_word {c : Char} (h1 : isNum c = true)
    (h2 : c.isDigit = false) : isWordChar c = false := by
  have : c = '.' ∨ c = ',' := by
    simp [isNum, h2] at h1
    tauto
  rcases this with e | e <;> subst e <;> decide

/-- `strip()` is the identity on a space-joined line of nonempty
whitespace-free tokens. -/
theorem stripWS_intercalateSp (toks : List (List Char))
    (htok : ∀ t ∈ toks, t ≠ [] ∧ ∀ c ∈ t, isWS c = false) :
    stripWS (intercalateSp toks) = intercalateSp toks :=
  stripWS_eq_self_of_ends _ (intercalateSp_head_nonws toks htok)
    (intercalateSp_getLast_nonws toks htok)

/-- `strip()` removes exactly a trailing space left over from a stripped
run. -/
theorem stripWS_intercalateSp_sp (toks : List (List Char))
    (htok : ∀ t ∈ toks, t ≠ [] ∧ ∀ c ∈ t, isWS c = false) :
    stripWS (intercalateSp toks ++ [' ']) = intercalateSp toks :=
  stripWS_append_sp _ (intercalateSp_head_nonws toks htok)
    (intercalateSp_getLast_nonws toks htok)

/-- The product pattern cannot match a line made of non-numeric name tokens
followed by at most two further tokens. -/
theorem matchPatt_intercalate_none (NT B : List (List Char)) (hNT : NT ≠ [])
    (hname : ∀ t ∈ NT, t ≠ [] ∧ (∀ c ∈ t, isWS c = false) ∧
      ¬(∀ c ∈ t, isNum c = true))
    (hB : ∀ t ∈ B, t ≠ [] ∧ ∀ c ∈ t, isWS c = false) (hBlen : B.length ≤ 2) :
    matchPatt (intercalateSp (NT ++ B)) = none := by
  apply matchPatt_none
  · simp [hNT]
  · intro t ht
    rcases List.mem_append.mp ht with h | h
    · exact ⟨(hname t h).1, (hname t h).2.1⟩
    · exact hB t h
  · apply noTriple_of_append _ _ _ hBlen
    intro t ht
    intro hall
    exact (hname t ht).2.2 hall.2

/-- The head of a `dropWhile` result fails the predicate. -/
theorem dropWhile_head_false {p : Char → Bool} {l : List Char} {a : Char}
    {t : List Char} (h : l.dropWhile p = a :: t) : p a = false := by
  induction l with
  | nil => simp at h
  | cons c r ih =>
    by_cases hc : p c = true
    · rw [List.dropWhile_cons_of_pos hc] at h
      exact ih h
    · rw [List.dropWhile_cons_of_neg (by simp [hc])] at h
      injection h with h1 _
      rw [← h1]
      simp [hc]

/-- Claim C10: on a whitespace-collapsed line of the shape
`<name> <price> <qty> <4-8 digit integer>` whose name tokens each contain a
non-numeric character, the trailing digit run is stripped by the
barcode/internal-code substitutions whether or not it is a real code (an
8-digit run falls to the barcode strip, a shorter one to the code strip,
and an 8-digit strip can even bite into the quantity token's trailing
digits); the cleaned line retains at most two numeric tokens after the name
and therefore never matches the three-numeric-token pattern: the line
yields no candidate and is silently skipped. -/
theorem C10_unconditional_strip (nameToks : List (List Char)) (p q d : List Char)
    (hNT : nameToks ≠ [])
    (hname : ∀ t ∈ nameToks, t ≠ [] ∧ (∀ c ∈ t, isWS c = false) ∧
      ¬(∀ c ∈ t, isNum c = true))
    (hp : p ≠ []) (hpn : ∀ c ∈ p, isNum c = true)
    (hq : q ≠ []) (hqn : ∀ c ∈ q, isNum c = true)
    (hd : ∀ c ∈ d, c.isDigit = true) (hd1 : 4 ≤ d.length) (hd2 : d.length ≤ 8)
    (hlixo : containsAnyLixo (intercalateSp (nameToks ++ [p, q, d])) = false) :
    (∃ B : List (List Char), B.length ≤ 2 ∧
      stripCodes (intercalateSp (nameToks ++ [p, q, d])) =
        intercalateSp (nameToks ++ B)) ∧
    lineCandidate (intercalateSp (nameToks ++ [p, q, d])) = none := by
  have hdne : d ≠ [] := by
    intro h
    rw [h] at hd1
    simp at hd1
  have hpws : ∀ c ∈ p, isWS c = false := fun c hc => num_not_ws (hpn c hc)
  have hqws : ∀ c ∈ q, isWS c = false := fun c hc => num_not_ws (hqn c hc)
  have hdws : ∀ c ∈ d, isWS c = false :=
    fun c hc => num_not_ws (digit_isNum (hd c hc))
  have htokAll : ∀ t ∈ nameToks ++ [p, q, d], t ≠ [] ∧ ∀ c ∈ t, isWS c = false := by
    intro t ht
    rcases List.mem_append.mp ht with h | h
    · exact ⟨(hname t h).1, (hname t h).2.1⟩
    · simp only [List.mem_cons, List.not_mem_nil, or_false] at h
      rcases h with h | h | h
      · rw [h]; exact ⟨hp, hpws⟩
      · rw [h]; exact ⟨hq, hqws⟩
      · rw [h]; exact ⟨hdne, hdws⟩
  have htok12 : ∀ t ∈ nameToks ++ [p, q], t ≠ [] ∧ ∀ c ∈ t, isWS c = false := by
    intro t ht
    rcases List.mem_append.mp ht with h | h
    · exact ⟨(hname t h).1, (hname t h).2.1⟩
    · simp only [List.mem_cons, List.not_mem_nil, or_false] at h
      rcases h with h | h
      · rw [h]; exact ⟨hp, hpws⟩
      · rw [h]; exact ⟨hq, hqws⟩
  have htok1 : ∀ t ∈ nameToks ++ [p], t ≠ [] ∧ ∀ c ∈ t, isWS c = false := by
    intro t ht
    rcases List.mem_append.mp ht with h | h
    · exact ⟨(hname t h).1, (hname t h).2.1⟩
    · simp only [List.mem_cons, List.not_mem_nil, or_false] at h
      rw [h]; exact ⟨hp, hpws⟩
  have hA12ne : nameToks ++ [p, q] ≠ [] := by simp
  have hA1ne : nameToks ++ [p] ≠ [] := by simp
  have hL : intercalateSp (nameToks ++ [p, q, d]) =
      intercalateSp (nameToks ++ [p, q]) ++ ' ' :: d := by
    have h : nameToks ++ [p, q, d] = (nameToks ++ [p, q]) ++ [d] := by simp
    rw [h, intercalateSp_append_single _ _ hA12ne]
  have hX1 : intercalateSp (nameToks ++ [p, q]) =
      intercalateSp (nameToks ++ [p]) ++ ' ' :: q := by
    have h : nameToks ++ [p, q] = (nameToks ++ [p]) ++ [q] := by simp
    rw [h, intercalateSp_append_single _ _ hA1ne]
  obtain ⟨B, hBlen, hBtok, hstrip⟩ :
      ∃ B : List (List Char), B.length ≤ 2 ∧
        (∀ t ∈ B, t ≠ [] ∧ ∀ c ∈ t, isWS c = false) ∧
        stripCodes (intercalateSp (nameToks ++ [p, q, d])) =
          intercalateSp (nameToks ++ B) := by
    by_cases h8 : d.length = 8
    · -- the 8-digit run is taken by the barcode strip
      have hfire1 : stripTrailing 8 13 (intercalateSp (nameToks ++ [p, q, d])) =
          intercalateSp (nameToks ++ [p, q]) ++ [' '] := by
        rw [hL]
        exact stripTrailing_fire 8 13 _ ' ' d hd (by decide) (by decide)
          (by omega) (by omega)
      have hs1 : stripWS (intercalateSp (nameToks ++ [p, q]) ++ [' ']) =
          intercalateSp (nameToks ++ [p, q]) :=
        stripWS_intercalateSp_sp _ htok12
      -- decompose the quantity token around its maximal trailing digit run
      have hq_split : (q.reverse.dropWhile Char.isDigit).reverse ++
          (q.reverse.takeWhile Char.isDigit).reverse = q := by
        rw [← List.reverse_append, List.takeWhile_append_dropWhile,
          List.reverse_reverse]
      have hr_digits : ∀ c ∈ (q.reverse.takeWhile Char.isDigit).reverse,
          c.isDigit = true :=
        fun c hc => List.mem_takeWhile_imp (List.mem_reverse.mp hc)
      cases hq0 : q.reverse.dropWhile Char.isDigit with
      | nil =>
        -- the quantity token is all digits
        have hqd : ∀ c ∈ q, c.isDigit = true := by
          intro c hc
          exact List.dropWhile_eq_nil_iff.mp hq0 c (List.mem_reverse.mpr hc)
        by_cases hlen : 4 ≤ q.length ∧ q.length ≤ 8
        · have hfire2 : stripTrailing 4 8 (intercalateSp (nameToks ++ [p, q])) =
              intercalateSp (nameToks ++ [p]) ++ [' '] := by
            rw [hX1]
            exact stripTrailing_fire 4 8 _ ' ' q hqd (by decide) (by decide)
              hlen.1 hlen.2
          refine ⟨[p], by simp, ?_, ?_⟩
          · intro t ht
            simp only [List.mem_cons, List.not_mem_nil, or_false] at ht
            rw [ht]; exact ⟨hp, hpws⟩
          · rw [stripCodes, hfire1, hs1, hfire2]
            exact stripWS_intercalateSp_sp _ htok1
        · have hskip2 : stripTrailing 4 8 (intercalateSp (nameToks ++ [p, q])) =
              intercalateSp (nameToks ++ [p, q]) := by
            rw [hX1]
            exact stripTrailing_skip 4 8 _ ' ' q hqd (by decide) hlen
          refine ⟨[p, q], by simp, ?_, ?_⟩
          · intro t ht
            simp only [List.mem_cons, List.not_mem_nil, or_false] at ht
            rcases ht with h | h
            · rw [h]; exact ⟨hp, hpws⟩
            · rw [h]; exact ⟨hq, hqws⟩
          · rw [stripCodes, hfire1, hs1, hskip2]
            exact stripWS_intercalateSp _ htok12
      | cons b0 tl =>
        have hb0dig : b0.isDigit = false := dropWhile_head_false hq0
        have hb0mem : b0 ∈ q := by
          apply List.mem_reverse.mp
          exact (List.dropWhile_sublist Char.isDigit).subset (by rw [hq0]; simp)
        have hb0num : isNum b0 = true := hqn b0 hb0mem
        have hb0w : isWordChar b0 = false := num_nondigit_not_word hb0num hb0dig
        have hq_eq : q = tl.reverse ++ b0 ::
            (q.reverse.takeWhile Char.isDigit).reverse := by
          conv_lhs => rw [← hq_split]
          rw [hq0]
          simp
        have hX1' : intercalateSp (nameToks ++ [p, q]) =
            (intercalateSp (nameToks ++ [p]) ++ ' ' :: tl.reverse) ++
              b0 :: (q.reverse.takeWhile Char.isDigit).reverse := by
          rw [hX1]
          conv_lhs => rw [hq_eq]
          simp
        by_cases hlen : 4 ≤ (q.reverse.takeWhile Char.isDigit).reverse.length ∧
            (q.reverse.takeWhile Char.isDigit).reverse.length ≤ 8
        · -- the code strip bites into the quantity token
          have hq0ne : tl.reverse ++ [b0] ≠ [] := by simp
          have hfire2 : stripTrailing 4 8 (intercalateSp (nameToks ++ [p, q])) =
              (intercalateSp (nameToks ++ [p]) ++ ' ' :: tl.reverse) ++ [b0] := by
            rw [hX1']
            exact stripTrailing_fire 4 8 _ b0 _ hr_digits hb0dig hb0w
              hlen.1 hlen.2
          have hshape : (intercalateSp (nameToks ++ [p]) ++ ' ' :: tl.reverse) ++ [b0] =
              intercalateSp (nameToks ++ [p, tl.reverse ++ [b0]]) := by
            have h : nameToks ++ [p, tl.reverse ++ [b0]] =
                (nameToks ++ [p]) ++ [tl.reverse ++ [b0]] := by simp
            rw [h, intercalateSp_append_single _ _ hA1ne]
            simp
          have hq0tok : ∀ t ∈ [p, tl.reverse ++ [b0]],
              t ≠ [] ∧ ∀ c ∈ t, isWS c = false := by
            intro t ht
            simp only [List.mem_cons, List.not_mem_nil, or_false] at ht
            rcases ht with h | h
            · rw [h]; exact ⟨hp, hpws⟩
            · rw [h]
              refine ⟨hq0ne, ?_⟩
              intro c hc
              apply hqws c
              rw [hq_eq]
              rcases List.mem_append.mp hc with h2 | h2
              · exact List.mem_append_left _ h2
              · simp only [List.mem_cons, List.not_mem_nil, or_false] at h2
                rw [h2]; exact List.mem_append_right _ (by simp)
          refine ⟨[p, tl.reverse ++ [b0]], by simp, hq0tok, ?_⟩
          rw [stripCodes, hfire1, hs1, hfire2, hshape]
          apply stripWS_intercalateSp
          intro t ht
          rcases List.mem_append.mp ht with h | h
          · exact ⟨(hname t h).1, (hname t h).2.1⟩
          · exact hq0tok t h
        · have hskip2 : stripTrailing 4 8 (intercalateSp (nameToks ++ [p, q])) =
              intercalateSp (nameToks ++ [p, q]) := by
            conv_lhs => rw [hX1']
            rw [stripTrailing_skip 4 8 _ b0 _ hr_digits hb0dig hlen]
            rw [← hX1']
          refine ⟨[p, q], by simp, ?_, ?_⟩
          · intro t ht
            simp only [List.mem_cons, List.not_mem_nil, or_false] at ht
            rcases ht with h | h
            · rw [h]; exact ⟨hp, hpws⟩
            · rw [h]; exact ⟨hq, hqws⟩
          · rw [stripCodes, hfire1, hs1, hskip2]
            exact stripWS_intercalateSp _ htok12
    · -- short run: the barcode strip skips, the code strip fires
      have hskip1 : stripTrailing 8 13 (intercalateSp (nameToks ++ [p, q, d])) =
          intercalateSp (nameToks ++ [p, q, d]) := by
        conv_lhs => rw [hL]
        rw [stripTrailing_skip 8 13 _ ' ' d hd (by decide) (by omega)]
        rw [← hL]
      have hs1 : stripWS (intercalateSp (nameToks ++ [p, q, d])) =
          intercalateSp (nameToks ++ [p, q, d]) :=
        stripWS_intercalateSp _ htokAll
      have hfire2 : stripTrailing 4 8 (intercalateSp (nameToks ++ [p, q, d])) =
          intercalateSp (nameToks ++ [p, q]) ++ [' '] := by
        rw [hL]
        exact stripTrailing_fire 4 8 _ ' ' d hd (by decide) (by decide) hd1 hd2
      refine ⟨[p, q], by simp, ?_, ?_⟩
      · intro t ht
        simp only [List.mem_cons, List.not_mem_nil, or_false] at ht
        rcases ht with h | h
        · rw [h]; exact ⟨hp, hpws⟩
        · rw [h]; exact ⟨hq, hqws⟩
      · rw [stripCodes, hskip1, hs1, hfire2]
        exact stripWS_intercalateSp_sp _ htok12
  refine ⟨⟨B, hBlen, hstrip⟩, ?_⟩
  have hLne : intercalateSp (nameToks ++ [p, q, d]) ≠ [] :=
    intercalateSp_ne_nil _ (by simp) (fun t ht => (htokAll t ht).1)
  have hclean : cleanLine (intercalateSp (nameToks ++ [p, q, d])) =
      intercalateSp (nameToks ++ [p, q, d]) := by
    rw [cleanLine, collapseWS_eq_self _ (noDbl_intercalateSp _ htokAll)]
    exact stripWS_intercalateSp _ htokAll
  rw [lineCandidate, hclean]
  rw [if_neg (by simp [List.isEmpty_iff, hLne])]
  rw [if_neg (by simp [hlixo])]
  rw [hstrip]
  exact matchPatt_intercalate_none nameToks B hNT hname hBtok hBlen

/-- Claim C10, witness: `"FEIJAO PRETO 12,50 3,000 3750"` loses its final
4-digit value to the code strip and yields no candidate. -/
theorem C10_witness :
    ((["FEIJAO".data, "PRETO".data] : List (List Char)) ≠ []) ∧
    containsAnyLixo (intercalateSp (["FEIJAO".data, "PRETO".data] ++
      ["12,50".data, "3,000".data, "3750".data])) = false ∧
    ((∃ B : List (List Char), B.length ≤ 2 ∧
        stripCodes (intercalateSp (["FEIJAO".data, "PRETO".data] ++
          ["12,50".data, "3,000".data, "3750".data])) =
          intercalateSp (["FEIJAO".data, "PRETO".data] ++ B)) ∧
      lineCandidate (intercalateSp (["FEIJAO".data, "PRETO".data] ++
        ["12,50".data, "3,000".data, "3750".data])) = none) := by
  refine ⟨by decide, by decide, ?_⟩
  exact C10_unconditional_strip ["FEIJAO".data, "PRETO".data]
    "12,50".data "3,000".data "3750".data (by decide) (by decide) (by decide)
    (by decide) (by decide) (by decide) (by decide) (by decide) (by decide)
    (by decide)

